import Mathlib

/-!
# Verification of the HENDRICS fold/phaseogram numerical core

A shallow embedding, over `ℚ`, of the phase-folding and profile-fitting code
in `hendrics/fold.py` and `hendrics/phaseogram.py`, together with theorems
checking the natural-language specification against it.

Conventions used throughout:
* numpy float arrays are modelled as `List ℚ`; where the behaviour of IEEE
  special values (division by zero producing `inf`/`nan`) matters, values live
  in the four-constructor type `NpVal` below, which mirrors numpy's arithmetic
  on `+inf`, `-inf` and `nan`;
* transcendental functions are not rational, so the cosine appearing in the
  harmonic model is abstracted as a parameter `cos1 : ℚ → ℚ` standing for
  `t ↦ cos (2 π t)`; nothing proved here depends on its values;
* `scipy.optimize.leastsq` is an external iterative solver; it is abstracted
  as an oracle `ls : List ℚ → List ℚ × Int` mapping the initial-guess vector
  to the fitted parameter vector and the integer success flag.  All the code
  surrounding the solver call is embedded faithfully.
-/

set_option linter.unusedVariables false

namespace Hendrics

/-- Model of a numpy double as used in the chi-square computation: either a
finite rational, `+inf`, `-inf`, or `nan`. -/
inductive NpVal where
  | fin (q : ℚ)
  | pinf
  | ninf
  | nan
deriving DecidableEq, Repr

namespace NpVal

/-- numpy addition on special values: `nan` is absorbing, `inf + (-inf) = nan`,
infinities absorb finite values. -/
def add : NpVal → NpVal → NpVal
  | nan, _ => nan
  | _, nan => nan
  | pinf, ninf => nan
  | ninf, pinf => nan
  | pinf, _ => pinf
  | _, pinf => pinf
  | ninf, _ => ninf
  | _, ninf => ninf
  | fin a, fin b => fin (a + b)

/-- numpy division: finite/finite is exact except that division by zero gives
`±inf` (or `nan` for `0/0`), as numpy does (emitting a runtime warning, which
has no semantic effect). -/
def divv : NpVal → NpVal → NpVal
  | nan, _ => nan
  | _, nan => nan
  | fin a, fin b =>
      if b ≠ 0 then fin (a / b)
      else if 0 < a then pinf
      else if a < 0 then ninf
      else nan
  | pinf, fin b => if 0 ≤ b then pinf else ninf
  | ninf, fin b => if 0 ≤ b then ninf else pinf
  | fin _, pinf => fin 0
  | fin _, ninf => fin 0
  | _, _ => nan

/-- numpy strict `<` as a boolean: any comparison with `nan` is `False`. -/
def ltb : NpVal → NpVal → Bool
  | nan, _ => false
  | _, nan => false
  | fin a, fin b => decide (a < b)
  | fin _, pinf => true
  | fin _, ninf => false
  | pinf, _ => false
  | ninf, ninf => false
  | ninf, _ => true

/-- Is the value a finite float? -/
def isFin : NpVal → Bool
  | fin _ => true
  | _ => false

/-- `np.sum` over a list of values. -/
def sumL (l : List NpVal) : NpVal := l.foldl add (fin 0)

end NpVal

/-! ## Embedding of `hendrics/fold.py` -/

/-- `_check_odd(n) = n // 2 * 2 + 1`: round down to the nearest even number,
then add one. -/
def check_odd (n : ℕ) : ℕ := n / 2 * 2 + 1

/-- First index of the maximum of a rational list (`np.argmax`): the first
occurrence wins, as in numpy. -/
def argmaxQ : List ℚ → ℕ
  | [] => 0
  | q :: rest =>
      let j := argmaxQ rest
      if q < rest.getD j q then j + 1 else 0

/-- `np.max` of a list (meaningful for nonempty input, as in numpy). -/
def maxD (l : List ℚ) : ℚ := l.foldl max (l.headD 0)

/-- `np.min` of a list (meaningful for nonempty input). -/
def minD (l : List ℚ) : ℚ := l.foldl min (l.headD 0)

/-- `np.mean` of a list. -/
def meanD (l : List ℚ) : ℚ := l.sum / l.length

/-- `dbl_cos_fit_func(p, x)`: a double sinusoid (fundamental + first
harmonic).  If the parameter vector has odd length, its head is a baseline
term.  `cos1 t` stands for `cos (2 π t)`; the source's
`p[s] * cos(2πx + 2π p[s+1])` is `p[s] * cos1 (x + p[s+1])` and
`p[s+2] * cos(4πx + 4π p[s+3])` is `p[s+2] * cos1 (2*x + 2*p[s+3])`. -/
def dbl_cos_fit_func (cos1 : ℚ → ℚ) (p : List ℚ) (x : ℚ) : ℚ :=
  let s := if p.length % 2 ≠ 0 then 1 else 0
  let base := if p.length % 2 ≠ 0 then p.getD 0 0 else 0
  base + p.getD s 0 * cos1 (x + p.getD (s + 1) 0)
       + p.getD (s + 2) 0 * cos1 (2 * x + 2 * p.getD (s + 3) 0)

/-- `std_fold_fit_func` just delegates to the double-cosine model. -/
def std_fold_fit_func (cos1 : ℚ → ℚ) (p : List ℚ) (x : ℚ) : ℚ :=
  dbl_cos_fit_func cos1 p x

/-- The source's `if pars[1] < -1: pars[1] += np.floor(-pars[1])`. -/
def adjust_phase_step1 (x : ℚ) : ℚ := if x < -1 then x + (⌊(-x : ℚ)⌋ : ℚ) else x

/-- The source's `if pars[1] > 1: pars[1] -= np.floor(pars[1])`. -/
def adjust_phase_step2 (x : ℚ) : ℚ := if 1 < x then x - (⌊x⌋ : ℚ) else x

/-- `adjust_amp_phase(pars)`: if the amplitude is negative, negate it and
shift the phase by `+0.5`; then apply the two conditional floor adjustments
and finally `pars[1] -= np.ceil(pars[1])`, in the source's order. -/
def adjust_amp_phase (p : ℚ × ℚ) : ℚ × ℚ :=
  let a := if p.1 < 0 then -p.1 else p.1
  let ph := if p.1 < 0 then p.2 + 1/2 else p.2
  let ph3 := adjust_phase_step2 (adjust_phase_step1 ph)
  (a, ph3 - (⌈ph3⌉ : ℚ))

/-- The initial guess vector of `fit_profile_with_sinusoids`:
`[max - mean, x[argmax(profile[:n // nperiods])] - 0.25, (max - mean)/2, 0]`,
with the mean prepended when a baseline is fitted.  `x i = i * nper / n`. -/
def guessPars (profile : List ℚ) (nper : ℕ) (baseline : Bool) : List ℚ :=
  let n := profile.length
  let a1 := maxD profile - meanD profile
  let g := [a1, ((argmaxQ (profile.take (n / nper)) * nper : ℕ) : ℚ) / n - 1/4,
            a1 / 2, 0]
  if baseline then meanD profile :: g else g

/-- The ten seed phases `np.arange(0., 1., 0.1)` of the multi-start loop
(ten values `0.0, 0.1, …, 0.9`). -/
def phases10 : List ℚ := (List.range 10).map (fun k => (k : ℚ) / 10)

/-- The initial value of `chisq_save` in the source, `1e32` (modelled as the
exact rational `10^32`). -/
def chisq0 : ℚ := 10 ^ 32

/-- The initial vector handed to `optimize.leastsq` in one multi-start
iteration: the standard guess with the seed written into
`guess_pars[3 + startidx]` — the phase of the `cos(4πx)` term (`second_harm`
in `dbl_cos_fit_func`), the spec model's φ2.  The phase of the `cos(2πx)`
term (`first_harm`, the spec's φ1, slot `startidx + 1`) keeps its standard
guess `x[argmax] - 0.25`. -/
def seededGuess (profile : List ℚ) (nper : ℕ) (baseline : Bool) (ph : ℚ) :
    List ℚ :=
  (guessPars profile nper baseline).set (3 + if baseline then 1 else 0) ph

/-- The fitted parameter vector of one multi-start iteration: run the
least-squares oracle on the seeded guess and canonicalize the two
(amplitude, phase) parameter pairs in place with `adjust_amp_phase`,
exactly as the source's slice assignments do. -/
def candFitPars (ls : List ℚ → List ℚ × Int) (profile : List ℚ) (nper : ℕ)
    (baseline : Bool) (ph : ℚ) : List ℚ :=
  let s := if baseline then 1 else 0
  let fp := (ls (seededGuess profile nper baseline ph)).1
  let a1 := adjust_amp_phase (fp.getD s 0, fp.getD (s + 1) 0)
  let fp1 := (fp.set s a1.1).set (s + 1) a1.2
  let a2 := adjust_amp_phase (fp1.getD (s + 2) 0, fp1.getD (s + 3) 0)
  (fp1.set (s + 2) a2.1).set (s + 3) a2.2

/-- The oracle's success flag for one multi-start iteration. -/
def candSuccess (ls : List ℚ → List ℚ × Int) (profile : List ℚ) (nper : ℕ)
    (baseline : Bool) (ph : ℚ) : Int :=
  (ls (seededGuess profile nper baseline ph)).2

/-- One elementwise term of the reduced chi-square,
`(profile[i] - model(x_i))**2 / profile_err[i]**2`, with numpy float
semantics (division by a zero squared error yields `inf`/`nan`). -/
def chiTerm (cos1 : ℚ → ℚ) (profile err : List ℚ) (nper : ℕ) (fp : List ℚ)
    (i : ℕ) : NpVal :=
  NpVal.divv
    (NpVal.fin ((profile.getD i 0
      - std_fold_fit_func cos1 fp ((i * nper : ℕ) / (profile.length : ℚ))) ^ 2))
    (NpVal.fin ((err.getD i 0) ^ 2))

/-- One iteration of the multi-start loop: the adjusted parameter vector, the
success flag, and the reduced chi-square
`np.sum((profile - model)**2 / profile_err**2) / (len(profile) - (startidx + 4))`. -/
def candidate (cos1 : ℚ → ℚ) (ls : List ℚ → List ℚ × Int)
    (profile err : List ℚ) (nper : ℕ) (baseline : Bool) (ph : ℚ) :
    List ℚ × Int × NpVal :=
  let s := if baseline then 1 else 0
  let fp2 := candFitPars ls profile nper baseline ph
  (fp2, candSuccess ls profile nper baseline ph,
   NpVal.divv
     (NpVal.sumL ((List.range profile.length).map
       (chiTerm cos1 profile err nper fp2)))
     (NpVal.fin ((profile.length : ℚ) - (s + 4))))

/-- The reduced chi-square of the candidate fit seeded with phase `ph`
(abbreviation for the third component of `candidate`). -/
def candChisq (cos1 : ℚ → ℚ) (ls : List ℚ → List ℚ × Int)
    (profile err : List ℚ) (nper : ℕ) (baseline : Bool) (ph : ℚ) : NpVal :=
  (candidate cos1 ls profile err nper baseline ph).2.2

/-- In the source, `fit_pars_save = guess_pars` initially *aliases* the guess
list (so if no candidate ever wins, the returned vector is the guess with the
last seed phase written into it), and is replaced by a copy of the fitted
parameters whenever a candidate wins. -/
inductive SavedPars where
  | aliasGuess
  | copied (l : List ℚ)
deriving DecidableEq

/-- The loop state produced when the candidate seeded with `ph` wins an
iteration of the multi-start loop: a copy of its fitted parameters, its
success flag and its chi-square. -/
def winState (cos1 : ℚ → ℚ) (ls : List ℚ → List ℚ × Int)
    (profile err : List ℚ) (nper : ℕ) (baseline : Bool) (ph : ℚ) :
    SavedPars × Int × NpVal :=
  let c := candidate cos1 ls profile err nper baseline ph
  (SavedPars.copied c.1, c.2.1, c.2.2)

/-- The multi-start loop of `fit_profile_with_sinusoids`: for each seed phase
compute the candidate and keep it iff its chi-square is strictly below the
best so far (`if chisq < chisq_save`). -/
def fit_loop (cos1 : ℚ → ℚ) (ls : List ℚ → List ℚ × Int)
    (profile err : List ℚ) (nper : ℕ) (baseline : Bool) :
    List ℚ → SavedPars × Int × NpVal → SavedPars × Int × NpVal
  | [], st => st
  | ph :: rest, st =>
      let c := candidate cos1 ls profile err nper baseline ph
      fit_loop cos1 ls profile err nper baseline rest
        (if NpVal.ltb c.2.2 st.2.2 then (SavedPars.copied c.1, c.2.1, c.2.2)
         else st)

/-- `fit_profile_with_sinusoids(profile, profile_err, nperiods, baseline)`:
runs the multi-start loop over the ten seed phases starting from
`(fit_pars_save, success_save, chisq_save) = (guess_pars, -1, 1e32)` and
returns the saved triple.  If no candidate ever had a strictly smaller
chi-square, the aliased guess vector is returned; by then the loop has
written the last seed phase `0.9` into `guess_pars[3 + startidx]`. -/
def fit_profile_with_sinusoids (cos1 : ℚ → ℚ) (ls : List ℚ → List ℚ × Int)
    (profile err : List ℚ) (nper : ℕ) (baseline : Bool) :
    List ℚ × Int × NpVal :=
  let s := if baseline then 1 else 0
  let res := fit_loop cos1 ls profile err nper baseline phases10
    (SavedPars.aliasGuess, -1, NpVal.fin chisq0)
  (match res.1 with
   | SavedPars.aliasGuess => (guessPars profile nper baseline).set (3 + s) (9/10)
   | SavedPars.copied l => l,
   res.2.1, res.2.2)

/-! ## Embedding of `hendrics/phaseogram.py` -/

/-- A `SliderOnSteroids` widget: a matplotlib slider extended with optional
hard bounds.  Only the numeric state matters for the claims: current value,
range, initial value, hard bounds. -/
structure Slider where
  val : ℚ
  valmin : ℚ
  valmax : ℚ
  valinit : ℚ
  hardvalmin : Option ℚ
  hardvalmax : Option ℚ
deriving DecidableEq, Repr

/-- `matplotlib.widgets.Slider.reset()`: set the value back to `valinit`. -/
def Slider.reset (s : Slider) : Slider := { s with val := s.valinit }

/-- `BasePhaseogram.zoom_in` body, per slider: centre a range of a quarter
of the old width on each side of the current value, clip to the hard bounds,
and rebuild the slider with `valinit` equal to the current value. -/
def Slider.zoom_in (s : Slider) : Slider :=
  let valinit := s.val
  let valrange := s.valmax - s.valmin
  let valmin := valinit - valrange / 4
  let valmin := match s.hardvalmin with
    | some h => max h valmin
    | none => valmin
  let valmax := valinit + valrange / 4
  let valmax := match s.hardvalmax with
    | some h => min h valmax
    | none => valmax
  { s with valmin := valmin, valmax := valmax, val := valinit,
           valinit := valinit }

/-- `BasePhaseogram.zoom_out` body, per slider: same but widening by the full
old range on each side (doubling the width). -/
def Slider.zoom_out (s : Slider) : Slider :=
  let valinit := s.val
  let valrange := s.valmax - s.valmin
  let valmin := valinit - valrange
  let valmin := match s.hardvalmin with
    | some h => max h valmin
    | none => valmin
  let valmax := valinit + valrange
  let valmax := match s.hardvalmax with
    | some h => min h valmax
    | none => valmax
  { s with valmin := valmin, valmax := valmax, val := valinit,
           valinit := valinit }

/-- The committed-ephemeris and slider state of `InteractivePhaseogram`
(spin-parameter mode).  The regenerated phaseogram arrays themselves are
produced by the external `stingray.pulse.search.phaseogram` routine and are
not part of the committed ephemeris, so they are not modelled here. -/
structure IPhaseogram where
  freq : ℚ
  fdot : ℚ
  fddot : ℚ
  dfOrd : ℤ
  dfdotOrd : ℤ
  dfddotOrd : ℤ
  sfreq : Slider
  sfdot : Slider
  sfddot : Slider
deriving DecidableEq, Repr

/-- `InteractivePhaseogram._read_sliders`: each slider value is scaled by its
order of magnitude `10 ** order`. -/
def IPhaseogram.read_sliders (st : IPhaseogram) : ℚ × ℚ × ℚ :=
  (st.sfreq.val * 10 ^ st.dfOrd,
   st.sfdot.val * 10 ^ st.dfdotOrd,
   st.sfddot.val * 10 ^ st.dfddotOrd)

/-- `BasePhaseogram.reset`: reset every slider to its `valinit`; the plot
refresh touches no ephemeris field. -/
def IPhaseogram.reset (st : IPhaseogram) : IPhaseogram :=
  { st with sfreq := st.sfreq.reset, sfdot := st.sfdot.reset,
            sfddot := st.sfddot.reset }

/-- `InteractivePhaseogram.recalculate`: read the slider deltas, commit
`new_base = old_base - delta` for `fddot`, `fdot` and `freq` (in the source's
order), regenerate the phaseograms (external, not modelled) and call
`self.reset(1)`. -/
def IPhaseogram.recalculate (st : IPhaseogram) : IPhaseogram :=
  let d := st.read_sliders
  IPhaseogram.reset
    { st with fddot := st.fddot - d.2.2, fdot := st.fdot - d.2.1,
              freq := st.freq - d.1 }

/-! ### Normalization of 2D histograms

2D histograms (phase × secondary axis) are represented as lists of
*secondary-axis columns*: each element of the outer list is the vector of
per-phase-bin values for one energy/time bin.  numpy's axis-0 reductions and
broadcast operations of the sources act per column in this representation. -/

/-- Insert into a sorted list (ascending). -/
def insertSorted (a : ℚ) : List ℚ → List ℚ
  | [] => [a]
  | b :: rest => if a ≤ b then a :: b :: rest else b :: insertSorted a rest

/-- Insertion sort, ascending. -/
def sortQ : List ℚ → List ℚ
  | [] => []
  | a :: rest => insertSorted a (sortQ rest)

/-- `np.median`: middle element of the sorted list, or the average of the
two middle elements for even length. -/
def medianD (l : List ℚ) : ℚ :=
  let s := sortQ l
  if l.length % 2 = 1 then s.getD (l.length / 2) 0
  else (s.getD (l.length / 2 - 1) 0 + s.getD (l.length / 2) 0) / 2

/-- `run_folding`'s default normalization branch applied to one energy
column: `hist2d /= histen[np.newaxis, :]` divides the column by its event
count, then `hist2d /= np.max(hist2d, axis=0)` divides it by its maximum. -/
def foldTo1Col (h : ℚ) (col : List ℚ) : List ℚ :=
  let c1 := col.map (· / h)
  c1.map (· / maxD c1)

/-- `run_folding`'s `ratios` branch applied to one energy column:
`hist2d /= smooth[:, np.newaxis]` (elementwise by the smoothed profile along
the phase axis) then `hist2d *= histen[np.newaxis, :]` (by the column's
event count). -/
def foldRatiosCol (smooth : List ℚ) (h : ℚ) (col : List ℚ) : List ℚ :=
  (col.zipWith (· / ·) smooth).map (· * h)

/-- The normalization dispatch of `run_folding` (fold.py lines 214-222):
`norm == 'ratios'` applies the ratios transform with file label `_ratios`;
*any other string* falls into the `else` branch, which applies the to1
transform with file label `_to1`. -/
def run_folding_norm (norm : String) (hist2d : List (List ℚ))
    (smooth histen : List ℚ) : List (List ℚ) × String :=
  if norm = "ratios" then
    ((hist2d.zip histen).map (fun p => foldRatiosCol smooth p.2 p.1),
     "_ratios")
  else
    ((hist2d.zip histen).map (fun p => foldTo1Col p.2 p.1), "_to1")

/-- `normalized_phaseogram`'s `to1` branch applied to one column:
`phas[i][:] -= minarr; phas[i][:] /= (maxarr - minarr)` — subtract the
column minimum, then divide by (column maximum − column minimum), both
computed on the original array. -/
def phaseogram_to1_col (col : List ℚ) : List ℚ :=
  col.map (fun v => (v - minD col) / (maxD col - minD col))

/-- The normalization dispatch of `normalized_phaseogram` (phaseogram.py
lines 55-76): `None` passes through, `to1`/`mediansub`/`meansub` transform
each column, and any other string warns (`warnings.warn`) and returns the
histogram unchanged.  The boolean records whether the warning was emitted. -/
def normalized_phaseogram_norm (norm : Option String)
    (phas : List (List ℚ)) : List (List ℚ) × Bool :=
  match norm with
  | none => (phas, false)
  | some n =>
    if n = "to1" then (phas.map phaseogram_to1_col, false)
    else if n = "mediansub" then
      (phas.map (fun col => col.map (fun v => v - medianD col)), false)
    else if n = "meansub" then
      (phas.map (fun col => col.map (fun v => v - meanD col)), false)
    else (phas, true)

/-! ### Folding: energy filter, phase histogram, smoothing window -/

/-- The energy filter of `run_folding`:
`good = (energy > emin) & (energy < emax)` — strict on both sides — keeps
the event pairs `(time, energy)` whose energy passes. -/
def run_folding_filter (emin emax : ℚ) (times energies : List ℚ) :
    List (ℚ × ℚ) :=
  (times.zip energies).filter (fun p => emin < p.2 && p.2 < emax)

/-- `pulse_phase(times - tref, …, to_1=True)` is external (stingray); the
phase of each filtered event is an arbitrary function `φ` of its shifted
time. -/
def foldPhases (φ : ℚ → ℚ) (tref : ℚ) (times : List ℚ) : List ℚ :=
  times.map (fun t => φ (t - tref))

/-- Membership test of `np.histogram` bin `i` out of `nbin` uniform bins
over `[0, 1]` (edges `np.linspace(0, 1, nbin + 1)`): half-open `[e_i,
e_{i+1})` except the last bin, which also includes the right edge `1`. -/
def binPred (nbin i : ℕ) (v : ℚ) : Bool :=
  if i + 1 = nbin then
    decide ((i : ℚ) / nbin ≤ v) && decide (v ≤ 1)
  else
    decide ((i : ℚ) / nbin ≤ v) && decide (v < ((i : ℚ) + 1) / nbin)

/-- `np.histogram(phases, bins=np.linspace(0, 1, nbin + 1))`: the count of
values in each of the `nbin` uniform bins. -/
def histogram1 (nbin : ℕ) (vals : List ℚ) : List ℕ :=
  (List.range nbin).map (fun i => (vals.filter (binPred nbin i)).length)

/-- The default smoothing window of `run_folding` as a function of the
profile length:
`np.min([len(profile), np.max([len(profile) // 10, 5])])` forced odd. -/
def default_smooth_window (plen : ℕ) : ℕ :=
  check_odd (min plen (max (plen / 10) 5))

/-- A concrete, trivial cosine instantiation (`cos 2πt` replaced by the
constant `0`), used to evaluate the fitter on concrete inputs. -/
def cosZero : ℚ → ℚ := fun _ => 0

/-- A concrete least-squares oracle that returns the guess unchanged with
success flag `1`, used to evaluate the fitter on concrete inputs. -/
def lsId : List ℚ → List ℚ × Int := fun g => (g, 1)

end Hendrics

/-! ## Theorems -/

namespace Hendrics

theorem NpVal.isFin_iff {v : NpVal} : v.isFin = true ↔ ∃ q, v = fin q := by
  cases v <;> simp [isFin]

theorem NpVal.ltb_fin_fin {a b : ℚ} : ltb (fin a) (fin b) = true ↔ a < b := by
  simp [ltb]

theorem NpVal.ltb_fin_fin_false {a b : ℚ} :
    ltb (fin a) (fin b) = false ↔ b ≤ a := by
  simp [ltb]

theorem NpVal.ltb_irrefl_fin {a : ℚ} : ltb (fin a) (fin a) = false := by
  simp [ltb]

/-- The last canonicalization step `x - ⌈x⌉` always lands in `(-1, 0]`. -/
theorem sub_ceil_mem_Ioc (x : ℚ) : -1 < x - (⌈x⌉ : ℚ) ∧ x - (⌈x⌉ : ℚ) ≤ 0 := by
  constructor
  · have h := Int.ceil_lt_add_one x
    linarith
  · have h := Int.le_ceil x
    linarith

/-- The amplitude returned by `adjust_amp_phase` is nonnegative. -/
theorem adjust_amp_phase_fst_nonneg (p : ℚ × ℚ) :
    0 ≤ (adjust_amp_phase p).1 := by
  by_cases h : p.1 < 0 <;> simp [adjust_amp_phase, h]
  · linarith
  · linarith [le_of_not_lt h]

/-- The phase returned by `adjust_amp_phase` lies in `(-1, 0]`. -/
theorem adjust_amp_phase_snd_mem (p : ℚ × ℚ) :
    -1 < (adjust_amp_phase p).2 ∧ (adjust_amp_phase p).2 ≤ 0 := by
  simp only [adjust_amp_phase]
  exact sub_ceil_mem_Ioc _

/-- C3: the amplitude/phase canonicalization `adjust_amp_phase` is
idempotent — applying it twice yields exactly the same pair as applying it
once; its output amplitude is nonnegative (a negative input amplitude is
negated, with the phase shifted by `+0.5`), and its output phase lies in
`(-1, 1]` (indeed in the subinterval `(-1, 0]`). -/
theorem claim_C3_adjust_amp_phase_canonical (p : ℚ × ℚ) :
    adjust_amp_phase (adjust_amp_phase p) = adjust_amp_phase p ∧
    0 ≤ (adjust_amp_phase p).1 ∧
    -1 < (adjust_amp_phase p).2 ∧ (adjust_amp_phase p).2 ≤ 1 := by
  have hfst := adjust_amp_phase_fst_nonneg p
  have hsnd := adjust_amp_phase_snd_mem p
  refine ⟨?_, hfst, hsnd.1, le_trans hsnd.2 (by norm_num)⟩
  rcases hp : adjust_amp_phase p with ⟨a, ψ⟩
  rw [hp] at hfst hsnd
  have ha : ¬ a < 0 := not_lt.mpr hfst
  have h1 : ¬ ψ < -1 := not_lt.mpr (le_of_lt hsnd.1)
  have h2 : ¬ 1 < ψ := by linarith [hsnd.2]
  have hceil : (⌈ψ⌉ : ℤ) = 0 :=
    Int.ceil_eq_zero_iff.mpr (Set.mem_Ioc.mpr ⟨hsnd.1, hsnd.2⟩)
  simp [adjust_amp_phase, adjust_phase_step1, adjust_phase_step2, ha, h1, h2,
    hceil]

/-- Elements read with an in-range `getD` belong to the list. -/
theorem getD_mem_of_lt {α : Type} {l : List α} {j : ℕ} (h : j < l.length)
    (d : α) : l.getD j d ∈ l := by
  rw [List.getD_eq_getElem l d h]
  exact List.getElem_mem h

/-- Unfolding of one step of the multi-start loop. -/
theorem fit_loop_cons (cos1 : ℚ → ℚ) (ls : List ℚ → List ℚ × Int)
    (profile err : List ℚ) (nper : ℕ) (baseline : Bool) (ph : ℚ)
    (rest : List ℚ) (st : SavedPars × Int × NpVal) :
    fit_loop cos1 ls profile err nper baseline (ph :: rest) st =
      fit_loop cos1 ls profile err nper baseline rest
        (if NpVal.ltb (candChisq cos1 ls profile err nper baseline ph) st.2.2
         then winState cos1 ls profile err nper baseline ph else st) := rfl

/-- Characterization of the multi-start loop: as long as every candidate's
chi-square is a finite float (and so is the running best), the loop either
leaves the incoming state untouched (when no candidate beats it under the
strict `<` of the source) or returns the *first* candidate whose chi-square
attains the minimum — later candidates never displace it on exact ties. -/
theorem fit_loop_spec (cos1 : ℚ → ℚ) (ls : List ℚ → List ℚ × Int)
    (profile err : List ℚ) (nper : ℕ) (baseline : Bool) (phs : List ℚ) :
    ∀ st : SavedPars × Int × NpVal,
    (∀ ph ∈ phs,
      (candChisq cos1 ls profile err nper baseline ph).isFin = true) →
    st.2.2.isFin = true →
    ((∀ ph ∈ phs,
        NpVal.ltb (candChisq cos1 ls profile err nper baseline ph) st.2.2
          = false) ∧
      fit_loop cos1 ls profile err nper baseline phs st = st) ∨
    (∃ i, i < phs.length ∧
      fit_loop cos1 ls profile err nper baseline phs st =
        winState cos1 ls profile err nper baseline (phs.getD i 0) ∧
      NpVal.ltb (candChisq cos1 ls profile err nper baseline (phs.getD i 0))
        st.2.2 = true ∧
      (∀ j, j < phs.length →
        NpVal.ltb (candChisq cos1 ls profile err nper baseline (phs.getD j 0))
          (candChisq cos1 ls profile err nper baseline (phs.getD i 0))
            = false) ∧
      (∀ j, j < i →
        NpVal.ltb (candChisq cos1 ls profile err nper baseline (phs.getD i 0))
          (candChisq cos1 ls profile err nper baseline (phs.getD j 0))
            = true)) := by
  induction phs with
  | nil =>
      intro st hfin hst
      exact Or.inl ⟨by simp, rfl⟩
  | cons ph rest ih =>
      intro st hfin hst
      obtain ⟨qc, hqc⟩ := NpVal.isFin_iff.mp (hfin ph (List.mem_cons_self ph rest))
      obtain ⟨qs, hqs⟩ := NpVal.isFin_iff.mp hst
      have hfinrest : ∀ p ∈ rest,
          (candChisq cos1 ls profile err nper baseline p).isFin = true :=
        fun p hp => hfin p (List.mem_cons_of_mem ph hp)
      rw [fit_loop_cons]
      by_cases hc :
          NpVal.ltb (candChisq cos1 ls profile err nper baseline ph) st.2.2
            = true
      · rw [if_pos hc]
        have hwfin : (winState cos1 ls profile err nper baseline ph).2.2.isFin
            = true := hfin ph (List.mem_cons_self ph rest)
        rcases ih (winState cos1 ls profile err nper baseline ph) hfinrest
            hwfin with ⟨hnone, heq⟩ | ⟨i, hi, heq, hlt, hnotlt, hstrict⟩
        · refine Or.inr ⟨0, Nat.succ_pos _, ?_, ?_, ?_, ?_⟩
          · simpa [List.getD_cons_zero] using heq
          · simpa [List.getD_cons_zero] using hc
          · intro j hj
            cases j with
            | zero =>
                simp only [List.getD_cons_zero]
                rw [hqc]; exact NpVal.ltb_irrefl_fin
            | succ j =>
                simp only [List.getD_cons_zero, List.getD_cons_succ]
                exact hnone _ (getD_mem_of_lt (Nat.lt_of_succ_lt_succ hj) 0)
          · intro j hj; omega
        · refine Or.inr ⟨i + 1, Nat.succ_lt_succ hi, ?_, ?_, ?_, ?_⟩
          · simpa [List.getD_cons_succ] using heq
          · obtain ⟨qi, hqi⟩ := NpVal.isFin_iff.mp
              (hfinrest _ (getD_mem_of_lt hi 0))
            rw [List.getD_cons_succ, hqi, hqs, NpVal.ltb_fin_fin]
            have h1 : qi < qc := by
              have := hlt
              rw [hqi] at this
              have hw : (winState cos1 ls profile err nper baseline ph).2.2 =
                  NpVal.fin qc := hqc
              rw [hw, NpVal.ltb_fin_fin] at this
              exact this
            have h2 : qc < qs := by
              rw [hqc, hqs, NpVal.ltb_fin_fin] at hc
              exact hc
            linarith
          · intro j hj
            cases j with
            | zero =>
                obtain ⟨qi, hqi⟩ := NpVal.isFin_iff.mp
                  (hfinrest _ (getD_mem_of_lt hi 0))
                simp only [List.getD_cons_zero, List.getD_cons_succ]
                rw [hqc, hqi, NpVal.ltb_fin_fin_false]
                have := hlt
                rw [hqi, show (winState cos1 ls profile err nper baseline
                  ph).2.2 = NpVal.fin qc from hqc, NpVal.ltb_fin_fin] at this
                linarith
            | succ j =>
                simp only [List.getD_cons_succ]
                exact hnotlt j (Nat.lt_of_succ_lt_succ hj)
          · intro j hj
            cases j with
            | zero =>
                simp only [List.getD_cons_zero, List.getD_cons_succ]
                have := hlt
                rwa [show (winState cos1 ls profile err nper baseline
                  ph).2.2 = NpVal.fin qc from hqc, ← hqc] at this
            | succ j =>
                simp only [List.getD_cons_succ]
                exact hstrict j (Nat.lt_of_succ_lt_succ hj)
      · have hc' :
            NpVal.ltb (candChisq cos1 ls profile err nper baseline ph) st.2.2
              = false := by
          cases h : NpVal.ltb (candChisq cos1 ls profile err nper baseline ph)
            st.2.2
          · rfl
          · exact absurd h hc
        rw [if_neg (by simp [hc'])]
        rcases ih st hfinrest hst with ⟨hnone, heq⟩ |
            ⟨i, hi, heq, hlt, hnotlt, hstrict⟩
        · refine Or.inl ⟨?_, heq⟩
          intro p hp
          rcases List.mem_cons.mp hp with rfl | hp'
          · exact hc'
          · exact hnone p hp'
        · refine Or.inr ⟨i + 1, Nat.succ_lt_succ hi, ?_, ?_, ?_, ?_⟩
          · simpa [List.getD_cons_succ] using heq
          · simpa [List.getD_cons_succ] using hlt
          · intro j hj
            obtain ⟨qi, hqi⟩ := NpVal.isFin_iff.mp
              (hfinrest _ (getD_mem_of_lt hi 0))
            cases j with
            | zero =>
                simp only [List.getD_cons_zero, List.getD_cons_succ]
                rw [hqc, hqi, NpVal.ltb_fin_fin_false]
                have h1 : qi < qs := by
                  have := hlt
                  rw [hqi, hqs, NpVal.ltb_fin_fin] at this
                  exact this
                have h2 : qs ≤ qc := by
                  rw [hqc, hqs, NpVal.ltb_fin_fin_false] at hc'
                  exact hc'
                linarith
            | succ j =>
                simp only [List.getD_cons_succ]
                exact hnotlt j (Nat.lt_of_succ_lt_succ hj)
          · intro j hj
            obtain ⟨qi, hqi⟩ := NpVal.isFin_iff.mp
              (hfinrest _ (getD_mem_of_lt hi 0))
            cases j with
            | zero =>
                simp only [List.getD_cons_zero, List.getD_cons_succ]
                rw [hqc, hqi, NpVal.ltb_fin_fin]
                have h1 : qi < qs := by
                  have := hlt
                  rw [hqi, hqs, NpVal.ltb_fin_fin] at this
                  exact this
                have h2 : qs ≤ qc := by
                  rw [hqc, hqs, NpVal.ltb_fin_fin_false] at hc'
                  exact hc'
                linarith
            | succ j =>
                simp only [List.getD_cons_succ]
                exact hstrict j (Nat.lt_of_succ_lt_succ hj)

/-- C1, amended: `fit_profile_with_sinusoids` runs the least-squares fit
once per seed in `phases10 = [0.0, 0.1, …, 0.9]` — but each candidate's
initial vector is the standard guess with the seed written into the
*second-harmonic* phase slot `guess_pars[3 + startidx]` (the phase φ2 of the
`cos(4πx)` term), while the first-harmonic phase φ1 (slot `startidx + 1`,
the `cos(2πx)` term) stays fixed at its standard guess `x[argmax] - 0.25`,
contrary to the claim's "initial value of the first-harmonic phase φ1".
It returns the parameter vector, success flag and reduced chi-square of the
candidate attaining the lowest reduced chi-square; the first such candidate
wins on exact ties, because the comparison is strict `<` (`∀ j < i` the
earlier chi-squares are strictly larger, `∀ j` none is strictly smaller).
Stated under the hypotheses that every candidate chi-square is a finite
float and that at least one beats the `1e32` sentinel. -/
theorem claim_C1_fit_profile_multistart (cos1 : ℚ → ℚ)
    (ls : List ℚ → List ℚ × Int) (profile err : List ℚ) (nper : ℕ)
    (baseline : Bool)
    (hfin : ∀ ph ∈ phases10,
      (candChisq cos1 ls profile err nper baseline ph).isFin = true)
    (hbeat : ∃ ph ∈ phases10,
      NpVal.ltb (candChisq cos1 ls profile err nper baseline ph)
        (NpVal.fin chisq0) = true) :
    ∃ i, i < phases10.length ∧
      fit_profile_with_sinusoids cos1 ls profile err nper baseline =
        ((candidate cos1 ls profile err nper baseline (phases10.getD i 0)).1,
         (candidate cos1 ls profile err nper baseline (phases10.getD i 0)).2.1,
         (candidate cos1 ls profile err nper baseline
           (phases10.getD i 0)).2.2) ∧
      (∀ j, j < phases10.length →
        NpVal.ltb (candChisq cos1 ls profile err nper baseline
            (phases10.getD j 0))
          (candChisq cos1 ls profile err nper baseline (phases10.getD i 0))
            = false) ∧
      (∀ j, j < i →
        NpVal.ltb (candChisq cos1 ls profile err nper baseline
            (phases10.getD i 0))
          (candChisq cos1 ls profile err nper baseline (phases10.getD j 0))
            = true) := by
  rcases fit_loop_spec cos1 ls profile err nper baseline phases10
      (SavedPars.aliasGuess, -1, NpVal.fin chisq0) hfin rfl with
    ⟨hnone, _⟩ | ⟨i, hi, heq, _, hnotlt, hstrict⟩
  · obtain ⟨ph, hph, hph'⟩ := hbeat
    have := hnone ph hph
    rw [this] at hph'
    exact absurd hph' (by simp)
  · refine ⟨i, hi, ?_, hnotlt, hstrict⟩
    simp only [fit_profile_with_sinusoids]
    rw [heq]
    simp [winState, candChisq]

/-- C1, counterexample: the seeds are *not* written into the first-harmonic
phase φ1.  On the profile `[0,1,0,1,2]` the standard guess is
`[6/5, 11/20, 3/5, 0]` (amplitude `max - mean = 6/5`, first-harmonic phase
`x[argmax] - 0.25 = 4/5 - 1/4 = 11/20`, half amplitude, second-harmonic
phase `0`).  At the fourth seed (`phases10[3] = 0.3`) the vector actually
handed to `optimize.leastsq` keeps φ1 (slot 1) at `11/20` — not `0.3` — and
carries the seed in slot 3, the second-harmonic phase φ2. -/
theorem claim_C1_counterexample :
    phases10.getD 3 0 = 3/10 ∧
    guessPars [0, 1, 0, 1, 2] 1 false = [6/5, 11/20, 3/5, 0] ∧
    seededGuess [0, 1, 0, 1, 2] 1 false (3/10) = [6/5, 11/20, 3/5, 3/10] ∧
    (11/20 : ℚ) ≠ 3/10 := by
  refine ⟨?_, ?_, ?_, by norm_num⟩
  · norm_num [phases10, show List.range 10 = [0,1,2,3,4,5,6,7,8,9] from rfl]
  · norm_num [guessPars, maxD, meanD, argmaxQ, max_def]
  · norm_num [seededGuess, guessPars, maxD, meanD, argmaxQ, max_def]

/-- Evaluation helper: on the constant profile `[1,1]` with unit errors, the
trivial cosine and the identity oracle, every candidate's reduced chi-square
is the finite value `(1 + 1) / (2 - 4) = -1`, independent of the seed. -/
theorem candChisq_cosZero_eval (ph : ℚ) :
    candChisq cosZero lsId [1, 1] [1, 1] 1 false ph = NpVal.fin (-1) := by
  simp only [candChisq, candidate, candFitPars, candSuccess, seededGuess,
    chiTerm, guessPars, maxD, meanD, argmaxQ, lsId, cosZero, std_fold_fit_func,
    dbl_cos_fit_func, NpVal.sumL, NpVal.divv, NpVal.add, List.range_succ,
    List.range_zero]
  norm_num [adjust_amp_phase, NpVal.divv, NpVal.add, chiTerm,
    std_fold_fit_func, dbl_cos_fit_func, cosZero,
    show List.range 2 = [0, 1] from rfl]

/-- Witness for C1: a concrete profile, error array and oracle satisfying the
hypotheses (all candidate chi-squares finite, at least one below `1e32`). -/
theorem claim_C1_fit_profile_multistart_witness :
    ∃ i, i < phases10.length ∧
      fit_profile_with_sinusoids cosZero lsId [1, 1] [1, 1] 1 false =
        ((candidate cosZero lsId [1, 1] [1, 1] 1 false
            (phases10.getD i 0)).1,
         (candidate cosZero lsId [1, 1] [1, 1] 1 false
            (phases10.getD i 0)).2.1,
         (candidate cosZero lsId [1, 1] [1, 1] 1 false
            (phases10.getD i 0)).2.2) ∧
      (∀ j, j < phases10.length →
        NpVal.ltb (candChisq cosZero lsId [1, 1] [1, 1] 1
            false (phases10.getD j 0))
          (candChisq cosZero lsId [1, 1] [1, 1] 1 false
            (phases10.getD i 0)) = false) ∧
      (∀ j, j < i →
        NpVal.ltb (candChisq cosZero lsId [1, 1] [1, 1] 1
            false (phases10.getD i 0))
          (candChisq cosZero lsId [1, 1] [1, 1] 1 false
            (phases10.getD j 0)) = true) :=
  claim_C1_fit_profile_multistart cosZero lsId [1, 1] [1, 1]
    1 false (fun ph _ => by rw [candChisq_cosZero_eval]; rfl)
    ⟨0, by simp [phases10]; exact ⟨0, by norm_num, by norm_num⟩, by
      rw [candChisq_cosZero_eval]
      simp only [NpVal.ltb, chisq0]
      norm_num⟩

/-- numpy addition never creates `-inf` from operands that are not `-inf`. -/
theorem NpVal.add_ne_ninf {a b : NpVal} (ha : a ≠ ninf) (hb : b ≠ ninf) :
    add a b ≠ ninf := by
  cases a <;> cases b <;> simp_all [add]

/-- numpy addition of a non-finite operand (not `-inf`) is non-finite. -/
theorem NpVal.add_not_fin {a b : NpVal} (ha : a ≠ ninf) (hb : b ≠ ninf)
    (h : a.isFin = false ∨ b.isFin = false) : (add a b).isFin = false := by
  cases a <;> cases b <;> simp_all [add, isFin]

/-- Summing a list that contains a non-finite value (and no `-inf`) yields a
non-finite, non-`-inf` result. -/
theorem foldl_add_bad :
    ∀ (l : List NpVal) (acc : NpVal), (∀ t ∈ l, t ≠ NpVal.ninf) →
    acc ≠ NpVal.ninf →
    (acc.isFin = false ∨ ∃ t ∈ l, t.isFin = false) →
    (l.foldl NpVal.add acc).isFin = false ∧
      l.foldl NpVal.add acc ≠ NpVal.ninf := by
  intro l
  induction l with
  | nil =>
      intro acc h1 h2 h3
      rcases h3 with h3 | ⟨t, ht, _⟩
      · exact ⟨h3, h2⟩
      · cases ht
  | cons t rest ih =>
      intro acc h1 h2 h3
      have ht : t ≠ NpVal.ninf := h1 t (List.mem_cons_self t rest)
      have h1' : ∀ x ∈ rest, x ≠ NpVal.ninf :=
        fun x hx => h1 x (List.mem_cons_of_mem t hx)
      have hacc' : NpVal.add acc t ≠ NpVal.ninf := NpVal.add_ne_ninf h2 ht
      rcases h3 with h3 | ⟨u, hu, hufin⟩
      · exact ih (NpVal.add acc t) h1' hacc'
          (Or.inl (NpVal.add_not_fin h2 ht (Or.inl h3)))
      · rcases List.mem_cons.mp hu with rfl | hu'
        · exact ih (NpVal.add acc u) h1' hacc'
            (Or.inl (NpVal.add_not_fin h2 ht (Or.inr hufin)))
        · exact ih (NpVal.add acc t) h1' hacc' (Or.inr ⟨u, hu', hufin⟩)

/-- A chi-square term `(residual)^2 / (error)^2` is never `-inf`. -/
theorem term_ne_ninf (a b : ℚ) :
    NpVal.divv (NpVal.fin (a ^ 2)) (NpVal.fin (b ^ 2)) ≠ NpVal.ninf := by
  simp only [NpVal.divv]
  split_ifs with h1 h2 h3 <;> simp
  exact absurd h3 (not_lt.mpr (sq_nonneg a))

/-- A chi-square term with a zero error is `+inf` or `nan`, never finite:
numpy's division by zero. -/
theorem term_not_fin_of_zero_err (a : ℚ) :
    (NpVal.divv (NpVal.fin (a ^ 2)) (NpVal.fin ((0 : ℚ) ^ 2))).isFin
      = false := by
  simp only [NpVal.divv]
  split_ifs <;> simp_all [NpVal.isFin]

/-- A non-finite, non-`-inf` value never wins the strict `<` comparison
against the running best. -/
theorem NpVal.ltb_false_of_bad {v w : NpVal} (h1 : v.isFin = false)
    (h2 : v ≠ ninf) : ltb v w = false := by
  cases v <;> cases w <;> simp_all [ltb, isFin]

/-- If no candidate ever beats the running best, the multi-start loop
returns its incoming state unchanged. -/
theorem fit_loop_no_winner (cos1 : ℚ → ℚ) (ls : List ℚ → List ℚ × Int)
    (profile err : List ℚ) (nper : ℕ) (baseline : Bool) :
    ∀ (phs : List ℚ) (st : SavedPars × Int × NpVal),
    (∀ ph ∈ phs,
      NpVal.ltb (candChisq cos1 ls profile err nper baseline ph) st.2.2
        = false) →
    fit_loop cos1 ls profile err nper baseline phs st = st := by
  intro phs
  induction phs with
  | nil => intro st h; rfl
  | cons ph rest ih =>
      intro st h
      rw [fit_loop_cons, if_neg (by simp [h ph (List.mem_cons_self ph rest)])]
      exact ih st fun p hp => h p (List.mem_cons_of_mem ph hp)

/-- Dividing a non-finite, non-`-inf` sum by a nonnegative finite degree of
freedom stays non-finite and non-`-inf`. -/
theorem NpVal.divv_bad_fin {v : NpVal} {d : ℚ} (h1 : v.isFin = false)
    (h2 : v ≠ ninf) (hd : 0 ≤ d) :
    (divv v (fin d)).isFin = false ∧ divv v (fin d) ≠ ninf := by
  cases v with
  | fin q => simp [isFin] at h1
  | pinf => simp [divv, if_pos hd, isFin]
  | ninf => exact absurd rfl h2
  | nan => simp [divv, isFin]

/-- A chi-square term is never `-inf` (both numerator and denominator are
squares). -/
theorem chiTerm_ne_ninf (cos1 : ℚ → ℚ) (profile err : List ℚ) (nper : ℕ)
    (fp : List ℚ) (i : ℕ) :
    chiTerm cos1 profile err nper fp i ≠ NpVal.ninf := by
  rw [chiTerm]
  exact term_ne_ninf _ _

/-- A chi-square term with a zero error entry is non-finite. -/
theorem chiTerm_not_fin (cos1 : ℚ → ℚ) (profile err : List ℚ) (nper : ℕ)
    (fp : List ℚ) (i : ℕ) (h : err.getD i 0 = 0) :
    (chiTerm cos1 profile err nper fp i).isFin = false := by
  rw [chiTerm, h]
  exact term_not_fin_of_zero_err _

/-- Every candidate chi-square is non-finite (and not `-inf`) whenever the
error array has a zero entry within the profile's length and the profile has
more bins than fitted parameters. -/
theorem candChisq_not_fin_of_zero_err (cos1 : ℚ → ℚ)
    (ls : List ℚ → List ℚ × Int) (profile err : List ℚ) (nper : ℕ)
    (baseline : Bool) (ph : ℚ)
    (hz : ∃ i, i < profile.length ∧ err.getD i 0 = 0)
    (hn : (if baseline then 5 else 4) < profile.length) :
    (candChisq cos1 ls profile err nper baseline ph).isFin = false ∧
      candChisq cos1 ls profile err nper baseline ph ≠ NpVal.ninf := by
  obtain ⟨i0, hi0, hz0⟩ := hz
  have hterms : ∀ t ∈ (List.range profile.length).map
      (chiTerm cos1 profile err nper
        (candFitPars ls profile nper baseline ph)), t ≠ NpVal.ninf := by
    intro t ht
    obtain ⟨j, _, rfl⟩ := List.mem_map.mp ht
    exact chiTerm_ne_ninf _ _ _ _ _ _
  have hbadmem : ∃ t ∈ (List.range profile.length).map
      (chiTerm cos1 profile err nper
        (candFitPars ls profile nper baseline ph)), t.isFin = false :=
    ⟨chiTerm cos1 profile err nper
       (candFitPars ls profile nper baseline ph) i0,
     List.mem_map_of_mem _ (List.mem_range.mpr hi0),
     chiTerm_not_fin _ _ _ _ _ _ hz0⟩
  have hsum := foldl_add_bad _ (NpVal.fin 0) hterms (by simp)
    (Or.inr hbadmem)
  have hd : (0 : ℚ) ≤ (profile.length : ℚ)
      - ((if baseline then 1 else 0 : ℕ) + 4) := by
    have hs : (if baseline then 1 else 0 : ℕ) + 4 ≤ profile.length := by
      split_ifs at hn ⊢ <;> omega
    have : ((if baseline then 1 else 0 : ℕ) + 4 : ℚ) ≤
        (profile.length : ℚ) := by exact_mod_cast hs
    push_cast at this ⊢
    linarith
  have h := NpVal.divv_bad_fin (v := NpVal.sumL
    ((List.range profile.length).map (chiTerm cos1 profile err nper
      (candFitPars ls profile nper baseline ph)))) hsum.1 hsum.2 hd
  simpa [candChisq, candidate, NpVal.sumL] using h

/-- Evaluation helper: on the profile `[1,1,1,1,1]` with error array
`[0,1,1,1,1]`, every candidate's reduced chi-square is `+inf` — the
zero-error bin makes the chi-square computation divide by zero. -/
theorem candChisq_zeroerr_eval (ph : ℚ) :
    candChisq cosZero lsId [1, 1, 1, 1, 1] [0, 1, 1, 1, 1] 1 false ph
      = NpVal.pinf := by
  simp only [candChisq, candidate, candFitPars, candSuccess, seededGuess,
    chiTerm, guessPars, maxD, meanD, argmaxQ, lsId, cosZero, std_fold_fit_func,
    dbl_cos_fit_func, NpVal.sumL, NpVal.divv, NpVal.add]
  norm_num [adjust_amp_phase, NpVal.divv, NpVal.add, chiTerm,
    std_fold_fit_func, dbl_cos_fit_func, cosZero,
    show List.range 5 = [0, 1, 2, 3, 4] from rfl]

/-- C2, counterexample: the claim says that a zero entry in the error array
makes the fitter signal a degenerate-input error *instead of computing a
reduced chi-square*.  On the concrete profile `[1,1,1,1,1]` with errors
`[0,1,1,1,1]` the code computes a reduced chi-square anyway — the division
by zero makes it `+inf` — and returns a perfectly ordinary triple (the
mutated initial guess, success flag `-1`, and the untouched `1e32`
sentinel); no error of any kind is signalled. -/
theorem claim_C2_counterexample :
    candChisq cosZero lsId [1, 1, 1, 1, 1] [0, 1, 1, 1, 1] 1 false 0
        = NpVal.pinf ∧
      fit_profile_with_sinusoids cosZero lsId [1, 1, 1, 1, 1] [0, 1, 1, 1, 1]
          1 false = ([0, -(1/4), 0, 9/10], -1, NpVal.fin chisq0) := by
  refine ⟨candChisq_zeroerr_eval 0, ?_⟩
  have hloop := fit_loop_no_winner cosZero lsId [1, 1, 1, 1, 1] [0, 1, 1, 1, 1]
    1 false phases10 (SavedPars.aliasGuess, -1, NpVal.fin chisq0)
    (fun ph _ => by rw [candChisq_zeroerr_eval]; rfl)
  simp only [fit_profile_with_sinusoids, hloop]
  norm_num [guessPars, maxD, meanD, argmaxQ]

/-- C2, amended: the chi-square computation is *not* guarded against zero
errors.  Whenever the error array has a zero entry (within the profile) and
the profile has more bins than fitted parameters, every candidate's reduced
chi-square is non-finite (`+inf` or `nan`), so no candidate ever beats the
`1e32` sentinel under the strict `<`, and the fitter returns — without
signalling anything — the aliased initial guess (with the last seed phase
`0.9` written into slot `3 + startidx`), success flag `-1`, and the sentinel
chi-square `1e32`. -/
theorem claim_C2_no_zero_error_guard (cos1 : ℚ → ℚ)
    (ls : List ℚ → List ℚ × Int) (profile err : List ℚ) (nper : ℕ)
    (baseline : Bool)
    (hz : ∃ i, i < profile.length ∧ err.getD i 0 = 0)
    (hn : (if baseline then 5 else 4) < profile.length) :
    (∀ ph ∈ phases10,
      (candChisq cos1 ls profile err nper baseline ph).isFin = false) ∧
    fit_profile_with_sinusoids cos1 ls profile err nper baseline =
      ((guessPars profile nper baseline).set
        (3 + if baseline then 1 else 0) (9/10), -1, NpVal.fin chisq0) := by
  constructor
  · exact fun ph _ =>
      (candChisq_not_fin_of_zero_err cos1 ls profile err nper baseline ph
        hz hn).1
  · have hall : ∀ ph ∈ phases10,
        NpVal.ltb (candChisq cos1 ls profile err nper baseline ph)
          ((SavedPars.aliasGuess, -1, NpVal.fin chisq0) :
            SavedPars × Int × NpVal).2.2 = false := by
      intro ph _
      have h := candChisq_not_fin_of_zero_err cos1 ls profile err nper
        baseline ph hz hn
      exact NpVal.ltb_false_of_bad h.1 h.2
    have hloop := fit_loop_no_winner cos1 ls profile err nper baseline
      phases10 (SavedPars.aliasGuess, -1, NpVal.fin chisq0) hall
    simp only [fit_profile_with_sinusoids, hloop]

/-- Witness for the amended C2 statement at a concrete degenerate input. -/
theorem claim_C2_no_zero_error_guard_witness :
    (∀ ph ∈ phases10,
      (candChisq cosZero lsId [1, 1, 1, 1, 1] [0, 1, 1, 1, 1] 1 false
        ph).isFin = false) ∧
    fit_profile_with_sinusoids cosZero lsId [1, 1, 1, 1, 1] [0, 1, 1, 1, 1]
        1 false =
      ((guessPars [1, 1, 1, 1, 1] 1 false).set
        (3 + if false then 1 else 0) (9/10), -1, NpVal.fin chisq0) :=
  claim_C2_no_zero_error_guard cosZero lsId [1, 1, 1, 1, 1] [0, 1, 1, 1, 1]
    1 false ⟨0, by norm_num, by norm_num⟩ (by norm_num)

/-- C4, amended: `recalculate()` commits the current slider deltas into the
base ephemeris as `new_base = old_base - delta` for frequency, fdot and
fddot, and resets each slider to its `valinit` — so the deltas reset to
*zero* only as long as every slider still has the zero `valinit` assigned by
`_construct_widgets` (the hypotheses).  That proviso is necessary:
`zoom_in`/`zoom_out` rebuild a slider with `valinit` equal to its current
value, after which `recalculate()` resets the delta to that value instead
(see the counterexample).  A `reset()` performed after `recalculate()`
changes no committed ephemeris field. -/
theorem claim_C4_recalculate_then_reset (st : IPhaseogram)
    (h1 : st.sfreq.valinit = 0) (h2 : st.sfdot.valinit = 0)
    (h3 : st.sfddot.valinit = 0) :
    (st.recalculate.freq = st.freq - st.sfreq.val * 10 ^ st.dfOrd ∧
     st.recalculate.fdot = st.fdot - st.sfdot.val * 10 ^ st.dfdotOrd ∧
     st.recalculate.fddot = st.fddot - st.sfddot.val * 10 ^ st.dfddotOrd) ∧
    st.recalculate.read_sliders = (0, 0, 0) ∧
    (st.recalculate.reset.freq = st.recalculate.freq ∧
     st.recalculate.reset.fdot = st.recalculate.fdot ∧
     st.recalculate.reset.fddot = st.recalculate.fddot) := by
  simp [IPhaseogram.recalculate, IPhaseogram.reset, IPhaseogram.read_sliders,
    Slider.reset, h1, h2, h3]

/-- C4, counterexample: "resets the deltas to zero" fails in a reachable
state.  Drag the frequency slider to `1/2` and click zoom-in: the rebuilt
slider has `valinit = 1/2` (phaseogram.py lines 295-297).  A subsequent
`recalculate()` resets the slider to that `valinit`, so the read deltas are
`(1/2, 0, 0)`, not `(0, 0, 0)` — the committed delta is still armed. -/
theorem claim_C4_counterexample :
    (Slider.zoom_in ⟨1/2, -1, 1, 0, none, none⟩).valinit = 1/2 ∧
    (IPhaseogram.recalculate ⟨2, 0, 0, 0, 0, 0,
        Slider.zoom_in ⟨1/2, -1, 1, 0, none, none⟩,
        ⟨0, -1, 1, 0, none, none⟩, ⟨0, -1, 1, 0, none, none⟩⟩).read_sliders
      = (1/2, 0, 0) ∧
    ((1/2 : ℚ), (0 : ℚ), (0 : ℚ)) ≠ ((0 : ℚ), (0 : ℚ), (0 : ℚ)) := by
  refine ⟨by norm_num [Slider.zoom_in], ?_, by norm_num⟩
  norm_num [IPhaseogram.recalculate, IPhaseogram.reset,
    IPhaseogram.read_sliders, Slider.reset, Slider.zoom_in]

/-- Witness for C4 on a concrete interactive-phaseogram state. -/
theorem claim_C4_recalculate_then_reset_witness :
    (IPhaseogram.recalculate ⟨2, 0, 0, 1, 0, 0,
        ⟨1/2, -1, 1, 0, some 0, none⟩, ⟨1/4, -1, 1, 0, none, none⟩,
        ⟨0, -1, 1, 0, none, none⟩⟩).freq = 2 - (1/2) * 10 ^ (1 : ℤ) ∧
    (IPhaseogram.recalculate ⟨2, 0, 0, 1, 0, 0,
        ⟨1/2, -1, 1, 0, some 0, none⟩, ⟨1/4, -1, 1, 0, none, none⟩,
        ⟨0, -1, 1, 0, none, none⟩⟩).read_sliders = (0, 0, 0) := by
  have h := claim_C4_recalculate_then_reset ⟨2, 0, 0, 1, 0, 0,
    ⟨1/2, -1, 1, 0, some 0, none⟩, ⟨1/4, -1, 1, 0, none, none⟩,
    ⟨0, -1, 1, 0, none, none⟩⟩ rfl rfl rfl
  exact ⟨h.1.1, h.2.1⟩

/-- C9: on a slider with no hard bounds, `zoom_in()` produces the new range
`[v - (M - m)/4, v + (M - m)/4]` around the current value `v`, which is kept
as the current (and initial) value of the rebuilt slider. -/
theorem claim_C9_zoom_in_quarter_range (s : Slider)
    (hmin : s.hardvalmin = none) (hmax : s.hardvalmax = none) :
    s.zoom_in.valmin = s.val - (s.valmax - s.valmin) / 4 ∧
    s.zoom_in.valmax = s.val + (s.valmax - s.valmin) / 4 ∧
    s.zoom_in.val = s.val := by
  simp [Slider.zoom_in, hmin, hmax]

/-- Witness for C9: the spec's own example — range `[-1, 1]`, current value
`0` — zooms in to exactly `[-0.5, 0.5]`. -/
theorem claim_C9_zoom_in_quarter_range_witness :
    (Slider.zoom_in ⟨0, -1, 1, 0, none, none⟩).valmin = -(1/2) ∧
    (Slider.zoom_in ⟨0, -1, 1, 0, none, none⟩).valmax = 1/2 ∧
    (Slider.zoom_in ⟨0, -1, 1, 0, none, none⟩).val = 0 := by
  have h := claim_C9_zoom_in_quarter_range ⟨0, -1, 1, 0, none, none⟩ rfl rfl
  exact ⟨by rw [h.1]; norm_num, by rw [h.2.1]; norm_num, h.2.2⟩

/-- `List.foldl max` commutes with mapping a max-preserving function. -/
theorem foldl_max_map (f : ℚ → ℚ) (hf : ∀ a b, max (f a) (f b) = f (max a b)) :
    ∀ (xs : List ℚ) (a : ℚ), (xs.map f).foldl max (f a) = f (xs.foldl max a) := by
  intro xs
  induction xs with
  | nil => intro a; rfl
  | cons y ys ih =>
      intro a
      simp only [List.map_cons, List.foldl_cons, hf]
      exact ih (max a y)

/-- `np.max` commutes with mapping a max-preserving function over a
nonempty list. -/
theorem maxD_map_comm (f : ℚ → ℚ) (hf : ∀ a b, max (f a) (f b) = f (max a b))
    (l : List ℚ) (hl : l ≠ []) : maxD (l.map f) = f (maxD l) := by
  cases l with
  | nil => exact absurd rfl hl
  | cons x xs =>
      simp only [maxD, List.headD_cons, List.map_cons, List.foldl_cons,
        max_self]
      exact foldl_max_map f hf xs x

/-- `List.foldl min` commutes with mapping a min-preserving function. -/
theorem foldl_min_map (f : ℚ → ℚ) (hf : ∀ a b, min (f a) (f b) = f (min a b)) :
    ∀ (xs : List ℚ) (a : ℚ), (xs.map f).foldl min (f a) = f (xs.foldl min a) := by
  intro xs
  induction xs with
  | nil => intro a; rfl
  | cons y ys ih =>
      intro a
      simp only [List.map_cons, List.foldl_cons, hf]
      exact ih (min a y)

/-- `np.min` commutes with mapping a min-preserving function over a
nonempty list. -/
theorem minD_map_comm (f : ℚ → ℚ) (hf : ∀ a b, min (f a) (f b) = f (min a b))
    (l : List ℚ) (hl : l ≠ []) : minD (l.map f) = f (minD l) := by
  cases l with
  | nil => exact absurd rfl hl
  | cons x xs =>
      simp only [minD, List.headD_cons, List.map_cons, List.foldl_cons,
        min_self]
      exact foldl_min_map f hf xs x

/-- C5, counterexample: under the `'to1'` mode of `normalized_phaseogram`
the column `[1, 2]` — which has positive maximum `2` — is normalized to
`[0, 1]`, not to `column / max = [1/2, 1]`: the code subtracts the column
minimum before dividing, contradicting the claim that the only
transformation is division by the column maximum. -/
theorem claim_C5_counterexample :
    0 < maxD [1, 2] ∧
    (normalized_phaseogram_norm (some "to1") [[1, 2]]).1 = [[0, 1]] ∧
    ([1, 2] : List ℚ).map (· / maxD [1, 2]) = [1/2, 1] ∧
    ([[0, 1]] : List (List ℚ)) ≠ [[1/2, 1]] := by
  refine ⟨by norm_num [maxD, max_def], ?_, ?_, by norm_num⟩
  · norm_num [normalized_phaseogram_norm, phaseogram_to1_col, minD, maxD,
      max_def, min_def]
  · norm_num [maxD, max_def]

/-- C5, amended: the two `'to1'` implementations differ.  In `run_folding`
(the `else` branch), each energy column with a positive event count `h` and
positive maximum is divided by `h` and then by its maximum, which equals
`column / max(column)` exactly and has maximum exactly `1`.  In
`normalized_phaseogram`, each column is instead rescaled affinely — the
column minimum is subtracted and the result divided by `max - min` — giving
minimum `0` and maximum `1`, which is *not* `column / max` in general. -/
theorem claim_C5_to1_normalizations (col : List ℚ) (h : ℚ)
    (hcol : col ≠ []) (hh : 0 < h) (hmax : 0 < maxD col)
    (col2 : List ℚ) (hcol2 : col2 ≠ []) (hlt : minD col2 < maxD col2) :
    foldTo1Col h col = col.map (· / maxD col) ∧
    maxD (foldTo1Col h col) = 1 ∧
    minD (phaseogram_to1_col col2) = 0 ∧
    maxD (phaseogram_to1_col col2) = 1 := by
  have hM1 : maxD (col.map (· / h)) = maxD col / h :=
    maxD_map_comm _ (fun a b => max_div_div_right hh.le a b) col hcol
  have heq : foldTo1Col h col = col.map (· / maxD col) := by
    rw [foldTo1Col, hM1, List.map_map]
    refine List.map_congr_left fun a _ => ?_
    show (a / h) / (maxD col / h) = a / maxD col
    rw [div_div_div_cancel_right₀]
    exact hh.ne.symm
  refine ⟨heq, ?_, ?_, ?_⟩
  · rw [heq, maxD_map_comm _ (fun a b => max_div_div_right hmax.le a b) col
      hcol, div_self hmax.ne.symm]
  · have hd : (0 : ℚ) < maxD col2 - minD col2 := by linarith
    have hf : ∀ a b : ℚ,
        min ((a - minD col2) / (maxD col2 - minD col2))
          ((b - minD col2) / (maxD col2 - minD col2)) =
        (min a b - minD col2) / (maxD col2 - minD col2) := by
      intro a b
      rw [min_div_div_right hd.le, min_sub_sub_right]
    rw [phaseogram_to1_col, minD_map_comm _ hf col2 hcol2, sub_self,
      zero_div]
  · have hd : (0 : ℚ) < maxD col2 - minD col2 := by linarith
    have hf : ∀ a b : ℚ,
        max ((a - minD col2) / (maxD col2 - minD col2))
          ((b - minD col2) / (maxD col2 - minD col2)) =
        (max a b - minD col2) / (maxD col2 - minD col2) := by
      intro a b
      rw [max_div_div_right hd.le, max_sub_sub_right]
    rw [phaseogram_to1_col, maxD_map_comm _ hf col2 hcol2,
      div_self (by linarith)]

/-- Witness for the amended C5 statement on a concrete column. -/
theorem claim_C5_to1_normalizations_witness :
    foldTo1Col 1 [1, 2] = ([1, 2] : List ℚ).map (· / maxD [1, 2]) ∧
    maxD (foldTo1Col 1 [1, 2]) = 1 ∧
    minD (phaseogram_to1_col [1, 2]) = 0 ∧
    maxD (phaseogram_to1_col [1, 2]) = 1 :=
  claim_C5_to1_normalizations [1, 2] 1 (by simp) (by norm_num)
    (by norm_num [maxD, max_def]) [1, 2] (by simp)
    (by norm_num [minD, maxD, max_def, min_def])

/-- C6, counterexample: in `run_folding` an unknown normalization string is
*not* returned unchanged with a warning — the `else` branch silently applies
the `'to1'` transform: with mode `"unknown"` the histogram `[[1, 2]]`
becomes `[[1/2, 1]]` with file label `"_to1"`. -/
theorem claim_C6_counterexample :
    (run_folding_norm "unknown" [[1, 2]] [1, 1] [1]).1 = [[1/2, 1]] ∧
    (run_folding_norm "unknown" [[1, 2]] [1, 1] [1]).2 = "_to1" ∧
    ([[1/2, 1]] : List (List ℚ)) ≠ [[1, 2]] := by
  refine ⟨?_, ?_, by norm_num⟩
  · rw [run_folding_norm, if_neg (by decide)]
    norm_num [foldTo1Col, maxD, max_def]
  · rw [run_folding_norm, if_neg (by decide)]

/-- C6, amended: the two normalization dispatchers handle unknown modes
differently.  `normalized_phaseogram` does behave as claimed: any mode other
than `None`, `'to1'`, `'mediansub'` and `'meansub'` returns the histogram
unchanged and emits a warning.  `run_folding`, however, has no unknown-mode
branch at all: any mode other than `'ratios'` — including arbitrary unknown
strings — silently applies the `'to1'` normalization (label `"_to1"`). -/
theorem claim_C6_unknown_norm (norm : Option String) (phas : List (List ℚ))
    (norms : String) (hist2d : List (List ℚ)) (smooth histen : List ℚ)
    (h0 : norm ≠ none) (h1 : norm ≠ some "to1")
    (h2 : norm ≠ some "mediansub") (h3 : norm ≠ some "meansub")
    (hr : norms ≠ "ratios") :
    normalized_phaseogram_norm norm phas = (phas, true) ∧
    run_folding_norm norms hist2d smooth histen =
      ((hist2d.zip histen).map (fun p => foldTo1Col p.2 p.1), "_to1") := by
  constructor
  · match norm with
    | none => exact absurd rfl h0
    | some n =>
        have h1' : n ≠ "to1" := fun h => h1 (by rw [h])
        have h2' : n ≠ "mediansub" := fun h => h2 (by rw [h])
        have h3' : n ≠ "meansub" := fun h => h3 (by rw [h])
        simp [normalized_phaseogram_norm, h1', h2', h3']
  · rw [run_folding_norm, if_neg hr]

/-- Witness for the amended C6 statement at a concrete unknown mode. -/
theorem claim_C6_unknown_norm_witness :
    normalized_phaseogram_norm (some "bogus") [[3]] = ([[3]], true) ∧
    run_folding_norm "bogus" [[1]] [1] [1] =
      (([[1]] : List (List ℚ)).zip [1] |>.map
        (fun p => foldTo1Col p.2 p.1), "_to1") :=
  claim_C6_unknown_norm (some "bogus") [[3]] "bogus" [[1]] [1] [1]
    (by simp) (by simp) (by simp) (by simp) (by simp)

/-- The folded profile has exactly `nbin` bins, whatever the phases. -/
theorem histogram1_length (nbin : ℕ) (vals : List ℚ) :
    (histogram1 nbin vals).length = nbin := by
  simp [histogram1]

/-- C7, counterexample: for `nbin = 3` the default smoothing window computed
by `run_folding` is `3` — the `np.min([len(profile), …])` clamp kicks in —
while the claimed formula `max(nbin // 10, 5)` forced odd gives `5`. -/
theorem claim_C7_counterexample :
    default_smooth_window (histogram1 3 [0]).length = 3 ∧
    check_odd (max (3 / 10) 5) = 5 ∧ (3 : ℕ) ≠ 5 := by
  refine ⟨?_, by decide, by decide⟩
  rw [histogram1_length]
  decide

/-- C7, amended: the default smoothing window is
`_check_odd(min(len(profile), max(len(profile) // 10, 5)))` where the
profile length is `nbin`; the claimed formula (without the `min` clamp)
agrees with it exactly when `5 ≤ nbin`, and the result is always odd
(`_check_odd` rounds down to the nearest even number and adds one). -/
theorem claim_C7_default_window (nbin : ℕ) (phases : List ℚ)
    (h : 5 ≤ nbin) :
    default_smooth_window (histogram1 nbin phases).length
      = check_odd (max (nbin / 10) 5) ∧
    default_smooth_window (histogram1 nbin phases).length % 2 = 1 := by
  rw [histogram1_length]
  have hm : min nbin (max (nbin / 10) 5) = max (nbin / 10) 5 := by omega
  constructor
  · rw [default_smooth_window, hm]
  · rw [default_smooth_window, check_odd]
    omega

/-- Witness for the amended C7 statement at `nbin = 16`. -/
theorem claim_C7_default_window_witness :
    default_smooth_window (histogram1 16 []).length
      = check_odd (max (16 / 10) 5) ∧
    default_smooth_window (histogram1 16 []).length % 2 = 1 :=
  claim_C7_default_window 16 [] (by norm_num)

/-- Summing a pointwise sum of two maps splits. -/
theorem sum_map_add (l : List ℕ) (f g : ℕ → ℕ) :
    (l.map fun i => f i + g i).sum = (l.map f).sum + (l.map g).sum := by
  induction l with
  | nil => simp
  | cons x xs ih => simp [ih]; omega

/-- An indicator that is false everywhere sums to zero. -/
theorem sum_indicator_zero (q : ℕ → Bool) :
    ∀ l : List ℕ, (∀ i ∈ l, q i = false) →
    (l.map fun i => if q i then 1 else 0).sum = 0 := by
  intro l
  induction l with
  | nil => intro _; rfl
  | cons x xs ih =>
      intro h
      simp only [List.map_cons, List.sum_cons,
        h x (List.mem_cons_self x xs)]
      simpa using ih fun i hi => h i (List.mem_cons_of_mem x hi)

/-- An indicator that is true at exactly one index below `n` sums to one
over `List.range n`. -/
theorem sum_indicator_unique (q : ℕ → Bool) :
    ∀ n i₀ : ℕ, i₀ < n → (∀ i, i < n → (q i = true ↔ i = i₀)) →
    ((List.range n).map (fun i => if q i then 1 else 0)).sum = 1 := by
  intro n
  induction n with
  | zero => intro i₀ h; omega
  | succ n ih =>
      intro i₀ hi₀ hq
      rw [List.range_succ, List.map_append, List.sum_append]
      simp only [List.map_cons, List.map_nil, List.sum_cons, List.sum_nil]
      by_cases h : i₀ = n
      · subst h
        rw [(hq i₀ (Nat.lt_succ_self _)).mpr rfl]
        have hzero : ∀ i ∈ List.range i₀, q i = false := by
          intro i hi
          have hilt : i < i₀ := List.mem_range.mp hi
          cases hqi : q i with
          | false => rfl
          | true =>
              have : i = i₀ := (hq i (by omega)).mp hqi
              omega
        rw [sum_indicator_zero q _ hzero]
        simp
      · have hqn : q n = false := by
          cases hqn : q n with
          | false => rfl
          | true =>
              have : n = i₀ := (hq n (Nat.lt_succ_self n)).mp hqn
              exact absurd this.symm h
        rw [hqn, ih i₀ (by omega) fun i hi => hq i (by omega)]
        simp

/-- Every phase value in `[0, 1]` lies in exactly one `np.histogram` bin:
the bins `[i/n, (i+1)/n)` with a closed last bin partition `[0, 1]`. -/
theorem binPred_unique (nbin : ℕ) (hn : 0 < nbin) (v : ℚ) (h0 : 0 ≤ v)
    (h1 : v ≤ 1) :
    ∃ i₀, i₀ < nbin ∧ ∀ i, i < nbin → (binPred nbin i v = true ↔ i = i₀) := by
  have hpos : (0 : ℚ) < nbin := by exact_mod_cast hn
  rcases eq_or_lt_of_le h1 with heq | hv1
  · -- v = 1 lands in the last bin and only there
    subst heq
    refine ⟨nbin - 1, by omega, fun i hi => ?_⟩
    by_cases hib : i + 1 = nbin
    · simp only [binPred, if_pos hib, Bool.and_eq_true, decide_eq_true_eq]
      constructor
      · intro _; omega
      · intro _
        refine ⟨?_, le_refl 1⟩
        rw [div_le_one hpos]
        exact_mod_cast hi.le
    · simp only [binPred, if_neg hib, Bool.and_eq_true, decide_eq_true_eq]
      constructor
      · rintro ⟨-, hlt⟩
        exfalso
        rw [lt_div_iff₀ hpos, one_mul] at hlt
        have : (i : ℚ) + 1 ≤ nbin := by exact_mod_cast (by omega : i + 1 ≤ nbin)
        linarith
      · intro hcontra; omega
  · -- 0 ≤ v < 1 lands in bin ⌊v * nbin⌋ and only there
    have hfl0 : (0 : ℤ) ≤ ⌊v * nbin⌋ :=
      Int.le_floor.mpr (by simpa using mul_nonneg h0 hpos.le)
    have hcast : ((⌊v * nbin⌋).toNat : ℤ) = ⌊v * nbin⌋ :=
      Int.toNat_of_nonneg hfl0
    have hcastQ : ((⌊v * nbin⌋).toNat : ℚ) = ((⌊v * nbin⌋ : ℤ) : ℚ) := by
      exact_mod_cast hcast
    have hub : v * nbin < nbin := by nlinarith
    refine ⟨(⌊v * nbin⌋).toNat, ?_, ?_⟩
    · have hfle : (⌊v * nbin⌋ : ℚ) ≤ v * nbin := Int.floor_le _
      have hlt : (⌊v * nbin⌋ : ℚ) < nbin := lt_of_le_of_lt hfle hub
      have : ⌊v * nbin⌋ < (nbin : ℤ) := by exact_mod_cast hlt
      omega
    · intro i hi
      have key : ((i : ℚ) ≤ v * nbin ∧ v * nbin < i + 1) ↔
          i = (⌊v * nbin⌋).toNat := by
        constructor
        · rintro ⟨hl, hr⟩
          have : ⌊v * nbin⌋ = (i : ℤ) := by
            rw [Int.floor_eq_iff]
            constructor
            · exact_mod_cast hl
            · exact_mod_cast hr
          omega
        · intro hieq
          subst hieq
          constructor
          · rw [hcastQ]
            exact Int.floor_le _
          · rw [hcastQ]
            exact Int.lt_floor_add_one _
      by_cases hib : i + 1 = nbin
      · simp only [binPred, if_pos hib, Bool.and_eq_true, decide_eq_true_eq]
        rw [div_le_iff₀ hpos]
        constructor
        · rintro ⟨hl, -⟩
          refine key.mp ⟨hl, ?_⟩
          have hnc : ((i : ℚ) + 1) = nbin := by exact_mod_cast hib
          linarith
        · intro hieq
          exact ⟨(key.mpr hieq).1, h1⟩
      · simp only [binPred, if_neg hib, Bool.and_eq_true, decide_eq_true_eq]
        rw [div_le_iff₀ hpos, lt_div_iff₀ hpos]
        exact key

/-- The per-bin counts of `v :: vs` are the counts of `vs` plus the
indicator of `v`'s bin. -/
theorem histogram1_cons (nbin : ℕ) (v : ℚ) (vs : List ℚ) :
    (histogram1 nbin (v :: vs)).sum =
      ((List.range nbin).map
        (fun i => if binPred nbin i v then 1 else 0)).sum +
      (histogram1 nbin vs).sum := by
  rw [histogram1, histogram1, ← sum_map_add]
  congr 1
  refine List.map_congr_left fun i _ => ?_
  rw [List.filter_cons]
  by_cases h : binPred nbin i v
  · simp [h]
    omega
  · simp [h]

/-- Invariant behind C8: if every value lies in `[0, 1]`, the bin counts of
the `nbin`-bin histogram over `[0, 1]` sum to the number of values — no
value is dropped or double-counted. -/
theorem histogram1_sum (nbin : ℕ) (hn : 0 < nbin) :
    ∀ vals : List ℚ, (∀ v ∈ vals, 0 ≤ v ∧ v ≤ 1) →
    (histogram1 nbin vals).sum = vals.length := by
  intro vals
  induction vals with
  | nil => intro _; simp [histogram1]
  | cons v vs ih =>
      intro hmem
      have hv := hmem v (List.mem_cons_self v vs)
      obtain ⟨i₀, hi₀, hiq⟩ := binPred_unique nbin hn v hv.1 hv.2
      rw [histogram1_cons,
        sum_indicator_unique _ nbin i₀ hi₀ hiq,
        ih fun x hx => hmem x (List.mem_cons_of_mem v hx)]
      simp [Nat.add_comm]

/-- C8: after the strict energy filter of `run_folding`, the sum of the bin
counts of the single-period folded profile (an `nbin`-bin histogram of the
phases over `[0, 1]`) equals the number of events that passed the filter,
provided every phase value lies in `[0, 1]` (the `pulse_phase` routine is
external and is abstracted by `φ`). -/
theorem claim_C8_profile_count_invariant (φ : ℚ → ℚ)
    (tref emin emax : ℚ) (times energies : List ℚ) (nbin : ℕ)
    (hn : 0 < nbin)
    (hphase : ∀ p ∈ foldPhases φ tref
        ((run_folding_filter emin emax times energies).map Prod.fst),
      0 ≤ p ∧ p ≤ 1) :
    (histogram1 nbin (foldPhases φ tref
        ((run_folding_filter emin emax times energies).map Prod.fst))).sum
      = (run_folding_filter emin emax times energies).length := by
  rw [histogram1_sum nbin hn _ hphase]
  simp [foldPhases]

/-- Witness for C8: three events, one rejected by the energy filter; the
two surviving phases land in the 4-bin histogram and the counts sum to 2. -/
theorem claim_C8_profile_count_invariant_witness :
    (histogram1 4 (foldPhases (fun t => t) 0
        ((run_folding_filter 0 10 [1/2, 1/4, 20] [1, 2, 50]).map
          Prod.fst))).sum
      = (run_folding_filter 0 10 [1/2, 1/4, 20] [1, 2, 50]).length :=
  claim_C8_profile_count_invariant (fun t => t) 0 0 10 [1/2, 1/4, 20]
    [1, 2, 50] 4 (by norm_num)
    (by norm_num [foldPhases, run_folding_filter])

/-- C10: the energy filter of `run_folding` is strict on both sides — an
event contributes exactly when `emin < energy < emax`, so an event whose
energy equals `emin` or `emax` exactly is excluded. -/
theorem claim_C10_strict_energy_filter (emin emax t e : ℚ)
    (times energies : List ℚ) :
    ((t, e) ∈ run_folding_filter emin emax times energies ↔
      (t, e) ∈ times.zip energies ∧ emin < e ∧ e < emax) ∧
    (t, emin) ∉ run_folding_filter emin emax times energies ∧
    (t, emax) ∉ run_folding_filter emin emax times energies := by
  refine ⟨?_, ?_, ?_⟩
  · rw [run_folding_filter, List.mem_filter]
    simp [and_assoc]
  · intro h
    rw [run_folding_filter, List.mem_filter] at h
    simp at h
  · intro h
    rw [run_folding_filter, List.mem_filter] at h
    simp at h

/-- Witness for C10: an event at exactly the lower bound is excluded even
though it is present in the event list, while one strictly inside passes. -/
theorem claim_C10_strict_energy_filter_witness :
    ((1 : ℚ), (5 : ℚ)) ∉ run_folding_filter 5 10 [1, 2] [5, 7] ∧
    (((2 : ℚ), (7 : ℚ)) ∈ run_folding_filter 5 10 [1, 2] [5, 7] ↔
      ((2 : ℚ), (7 : ℚ)) ∈ ([1, 2] : List ℚ).zip [5, 7] ∧
        (5 : ℚ) < 7 ∧ (7 : ℚ) < 10) :=
  ⟨(claim_C10_strict_energy_filter 5 10 1 5 [1, 2] [5, 7]).2.1,
   (claim_C10_strict_energy_filter 5 10 2 7 [1, 2] [5, 7]).1⟩

end Hendrics
